import Mathlib

/-!
# Verification of the NEWSAG extractive summarizer core

Shallow embedding of `backend/app/services/summarizer.py`
(`TextSummarizer`). Python strings are modelled as `List Char`,
Python floats as `ℚ` (exact arithmetic idealization), Python `set`
as `Finset (List Char)`, and a raised exception as `Except.error`.

The external `sklearn.feature_extraction.text.TfidfVectorizer`
(configured with `stop_words="english"`, `ngram_range=(1, 2)`,
`max_df=0.85`, `min_df=2`) is modelled in two parts:
* its vocabulary construction and its error behaviour
  (`ValueError` on empty vocabulary, on `max_df` corresponding to
  fewer documents than `min_df`, and on no terms remaining after
  pruning) are embedded concretely, following the documented
  semantics of `CountVectorizer.fit_transform` / `_limit_features`;
* the numeric tf-idf matrix entries are an abstract parameter
  `W : List Str → ℕ → ℕ → ℚ` (sentence index → vocabulary slot →
  weight), so every theorem quantified over `W` in particular holds
  for the actual tf-idf weights.

`np.argsort` (default `kind='quicksort'`, an introsort that numpy does
not document as stable) is modelled as the stable ascending argsort,
and `[::-1]` as `List.reverse`. The theorems about the ranking rely
only on facts true of any correct argsort output — it is a permutation
of the indices, ascending in score — and never on the model's tie
order, except for concrete evaluations on two-element arrays, where
numpy's introsort is a plain insertion sort and provably stable.
-/

/-- Python string model. -/
abbrev Str := List Char

/-- The Python whitespace class: the characters matched by `\s`
in `re` and split on by `str.split()` (ASCII model). -/
def isPySpace (c : Char) : Bool :=
  c == ' ' || c == '\t' || c == '\n' || c == '\r' || c == Char.ofNat 11 || c == Char.ofNat 12

/-- `re.sub(r"\s+", " ", text)`: collapse every whitespace run to a
single space character. -/
def collapseWs : Str → Str
  | [] => []
  | c :: cs =>
    if isPySpace c then
      match cs with
      | [] => [' ']
      | d :: _ => if isPySpace d then collapseWs cs else ' ' :: collapseWs cs
    else c :: collapseWs cs

/-- Maximal runs of characters satisfying `keep`; characters not
satisfying `keep` act as separators and are discarded. -/
def runsOf (keep : Char → Bool) : Str → List Str
  | [] => []
  | c :: cs =>
    if keep c then
      match cs with
      | [] => [[c]]
      | d :: _ =>
        if keep d then
          match runsOf keep cs with
          | w :: ws => (c :: w) :: ws
          | [] => [[c]]
        else [c] :: runsOf keep cs
    else runsOf keep cs

/-- `str.split()` with no separator: maximal runs of non-whitespace
characters, with no empty words. -/
def splitW : Str → List Str :=
  runsOf (fun c => !isPySpace c)

/-- `" ".join(pieces)`. -/
def joinSp : List Str → Str
  | [] => []
  | [w] => w
  | w :: ws => w ++ ' ' :: joinSp ws

/-- `len(s.split())`, the Python word count of a string. -/
def wordCount (s : Str) : ℕ :=
  (splitW s).length

/-- `s.lstrip()` (whitespace only). -/
def pyLstrip (s : Str) : Str :=
  s.dropWhile isPySpace

/-- `s.rstrip()` (whitespace only): remove the trailing run of
whitespace characters. -/
def pyRstrip : Str → Str
  | [] => []
  | c :: cs =>
    match pyRstrip cs with
    | [] => if isPySpace c then [] else [c]
    | d :: ds => c :: d :: ds

/-- `s.strip()` (whitespace only). -/
def pyStrip (s : Str) : Str :=
  pyRstrip (pyLstrip s)

/-- `s.lower()` (ASCII model). -/
def pyLower (s : Str) : Str :=
  s.map Char.toLower

/-- Sentence-final punctuation recognized by the segmenter's regex
`(?<=[.!?])\s+`. -/
def isSentPunct (c : Char) : Bool :=
  c == '.' || c == '!' || c == '?'

/-- Whether a string starts with a whitespace character. -/
def headIsSpace : Str → Bool
  | [] => false
  | d :: _ => isPySpace d

/-- Fuel-driven worker for `splitAfterPunct`; every step consumes at
least one character, so fuel equal to the string length suffices and
the fuel-exhaustion branch is unreachable. -/
def splitAPF : ℕ → Str → List Str
  | _, [] => [[]]
  | 0, l => [l]
  | fuel + 1, c :: cs =>
    if isSentPunct c && headIsSpace cs then
      [c] :: splitAPF fuel (cs.dropWhile isPySpace)
    else
      match splitAPF fuel cs with
      | p :: ps => (c :: p) :: ps
      | [] => [[c]]

/-- `re.split(r"(?<=[.!?])\s+", text)`: split at each whitespace run
that directly follows `.`, `!` or `?`; the punctuation stays with
the preceding piece and the whitespace run is consumed. -/
def splitAfterPunct (s : Str) : List Str :=
  splitAPF s.length s

/-- `TextSummarizer._split_sentences`: normalize whitespace, split
after sentence-final punctuation, keep the stripped fragments of
length greater than 50. -/
def splitSentences (text : Str) : List Str :=
  ((splitAfterPunct (collapseWs text)).map pyStrip).filter (fun s => 50 < s.length)

/-- sklearn's built-in English stop word list
(`sklearn.feature_extraction.text.ENGLISH_STOP_WORDS`), used because
the vectorizer is constructed with `stop_words="english"`. -/
def englishStopWords : List Str :=
  List.map String.data
    ["a", "about", "above", "across", "after", "afterwards", "again", "against",
     "all", "almost", "alone", "along", "already", "also", "although", "always",
     "am", "among", "amongst", "amoungst", "amount", "an", "and", "another",
     "any", "anyhow", "anyone", "anything", "anyway", "anywhere", "are",
     "around", "as", "at", "back", "be", "became", "because", "become",
     "becomes", "becoming", "been", "before", "beforehand", "behind", "being",
     "below", "beside", "besides", "between", "beyond", "bill", "both",
     "bottom", "but", "by", "call", "can", "cannot", "cant", "co", "con",
     "could", "couldnt", "cry", "de", "describe", "detail", "do", "done",
     "down", "due", "during", "each", "eg", "eight", "either", "eleven",
     "else", "elsewhere", "empty", "enough", "etc", "even", "ever", "every",
     "everyone", "everything", "everywhere", "except", "few", "fifteen",
     "fifty", "fill", "find", "fire", "first", "five", "for", "former",
     "formerly", "forty", "found", "four", "from", "front", "full", "further",
     "get", "give", "go", "had", "has", "hasnt", "have", "he", "hence", "her",
     "here", "hereafter", "hereby", "herein", "hereupon", "hers", "herself",
     "him", "himself", "his", "how", "however", "hundred", "i", "ie", "if",
     "in", "inc", "indeed", "interest", "into", "is", "it", "its", "itself",
     "keep", "last", "latter", "latterly", "least", "less", "ltd", "made",
     "many", "may", "me", "meanwhile", "might", "mill", "mine", "more",
     "moreover", "most", "mostly", "move", "much", "must", "my", "myself",
     "name", "namely", "neither", "never", "nevertheless", "next", "nine",
     "no", "nobody", "none", "noone", "nor", "not", "nothing", "now",
     "nowhere", "of", "off", "often", "on", "once", "one", "only", "onto",
     "or", "other", "others", "otherwise", "our", "ours", "ourselves", "out",
     "over", "own", "part", "per", "perhaps", "please", "put", "rather", "re",
     "same", "see", "seem", "seemed", "seeming", "seems", "serious", "several",
     "she", "should", "show", "side", "since", "sincere", "six", "sixty", "so",
     "some", "somehow", "someone", "something", "sometime", "sometimes",
     "somewhere", "still", "such", "system", "take", "ten", "than", "that",
     "the", "their", "them", "themselves", "then", "thence", "there",
     "thereafter", "thereby", "therefore", "therein", "thereupon", "these",
     "they", "thick", "thin", "third", "this", "those", "though", "three",
     "through", "throughout", "thru", "thus", "to", "together", "too", "top",
     "toward", "towards", "twelve", "twenty", "two", "un", "under", "until",
     "up", "upon", "us", "very", "via", "was", "we", "well", "were", "what",
     "whatever", "when", "whence", "whenever", "where", "whereafter",
     "whereas", "whereby", "wherein", "whereupon", "wherever", "whether",
     "which", "while", "whither", "who", "whoever", "whole", "whom", "whose",
     "why", "will", "with", "within", "without", "would", "yet", "you",
     "your", "yours", "yourself", "yourselves"]

/-- ASCII model of the `\w` character class used by the default
`token_pattern` `\b\w\w+\b`. -/
def isWordChar (c : Char) : Bool :=
  c.isAlphanum || c = '_'

/-- Adjacent two-word phrases joined by a space, as produced by the
vectorizer for `ngram_range=(1, 2)` after stop-word removal. -/
def bigrams : List Str → List Str
  | a :: b :: rest => (a ++ ' ' :: b) :: bigrams (b :: rest)
  | _ => []

/-- The vectorizer's analyzer applied to one sentence: lowercase,
extract tokens of at least two word characters, drop English stop
words, then add bigrams over the remaining tokens. -/
def tfidfTokens (s : Str) : List Str :=
  let toks :=
    ((runsOf isWordChar (pyLower s)).filter (fun t => 2 ≤ t.length)).filter
      (fun t => ¬ t ∈ englishStopWords)
  toks ++ bigrams toks

/-- Document frequency of a term: in how many of the per-sentence
token lists it occurs. -/
def docFreq (docs : List (List Str)) (t : Str) : ℕ :=
  (docs.filter (fun d => t ∈ d)).length

/-- All terms occurring in at least one sentence (the vocabulary
before `min_df`/`max_df` pruning). -/
def rawVocab (sentences : List Str) : List Str :=
  ((sentences.map tfidfTokens).flatten).dedup

/-- The vocabulary after pruning: terms with document frequency at
least `min_df = 2` and at most `max_df * n = 0.85 * n` documents. -/
def keptVocab (sentences : List Str) : List Str :=
  let docs := sentences.map tfidfTokens
  (rawVocab sentences).filter
    (fun t =>
      decide (2 ≤ docFreq docs t ∧
        (docFreq docs t : ℚ) ≤ (0.85 : ℚ) * sentences.length))

/-- The `ValueError`s that `TfidfVectorizer.fit_transform` can raise
with this configuration. -/
inductive PyError where
  | emptyVocabulary
  | maxDfLtMinDf
  | noTermsRemain
deriving DecidableEq

instance {ε α : Type} [DecidableEq ε] [DecidableEq α] : DecidableEq (Except ε α) := fun a b =>
  match a, b with
  | .error e, .error f => decidable_of_iff (e = f) (by simp)
  | .ok x, .ok y => decidable_of_iff (x = y) (by simp)
  | .error _, .ok _ => isFalse (by simp)
  | .ok _, .error _ => isFalse (by simp)

/-- The error behaviour of `fit_transform` on a list of sentences:
raise if the raw vocabulary is empty, if `max_df * n` corresponds to
fewer documents than `min_df = 2`, or if pruning leaves no terms;
otherwise succeed with the pruned vocabulary. -/
def fitTransformCheck (sentences : List Str) : Except PyError (List Str) :=
  if rawVocab sentences = [] then .error .emptyVocabulary
  else if (0.85 : ℚ) * sentences.length < 2 then .error .maxDfLtMinDf
  else if keptVocab sentences = [] then .error .noTermsRemain
  else .ok (keptVocab sentences)

/-- `np.linspace a b n` evaluated at position `i` (for `n ≥ 2`:
`a + (b - a) * i / (n - 1)`; a single sample is just `a`). -/
def linspace (a b : ℚ) (n : ℕ) (i : ℕ) : ℚ :=
  if n ≤ 1 then a else a + (b - a) * i / ((n : ℚ) - 1)

/-- `tfidf.sum(axis=1)` for sentence `i`: the sum of the sentence's
term weights over the pruned vocabulary. The per-entry weights `W`
are the abstract parameter standing for the external tf-idf matrix. -/
def tfidfRowSum (W : List Str → ℕ → ℕ → ℚ) (sentences : List Str) (i : ℕ) : ℚ :=
  ((List.range (keptVocab sentences).length).map (W sentences i)).sum

/-- `TextSummarizer._score`: row sums of the tf-idf matrix multiplied
by the lead bias `np.linspace(1.6, 0.7, n)`. -/
def scoreArr (W : List Str → ℕ → ℕ → ℚ) (sentences : List Str) : List ℚ :=
  (List.range sentences.length).map
    (fun i => tfidfRowSum W sentences i * linspace (1.6 : ℚ) (0.7 : ℚ) sentences.length i)

/-- The comparison under a stable ascending argsort of `s`: strictly
smaller value, or equal values with the original positions in order. -/
def rankLe (s : List ℚ) (i j : ℕ) : Prop :=
  s.getD i 0 < s.getD j 0 ∨ (s.getD i 0 = s.getD j 0 ∧ i ≤ j)

instance (s : List ℚ) : DecidableRel (rankLe s) := fun i j => by
  unfold rankLe; infer_instance

instance (s : List ℚ) : IsTotal ℕ (rankLe s) where
  total i j := by
    unfold rankLe
    rcases lt_trichotomy (s.getD i 0) (s.getD j 0) with h | h | h
    · exact Or.inl (Or.inl h)
    · rcases Nat.le_total i j with hij | hij
      · exact Or.inl (Or.inr ⟨h, hij⟩)
      · exact Or.inr (Or.inr ⟨h.symm, hij⟩)
    · exact Or.inr (Or.inl h)

instance (s : List ℚ) : IsTrans ℕ (rankLe s) where
  trans i j k hij hjk := by
    unfold rankLe at *
    rcases hij with h1 | ⟨e1, l1⟩
    · rcases hjk with h2 | ⟨e2, _⟩
      · exact Or.inl (h1.trans h2)
      · exact Or.inl (e2 ▸ h1)
    · rcases hjk with h2 | ⟨e2, l2⟩
      · exact Or.inl (e1 ▸ h2)
      · exact Or.inr ⟨e1.trans e2, l1.trans l2⟩

/-- `np.argsort(scores)`: the indices `0..n-1` sorted ascending by
score, ties keeping index order (stable). -/
def argsortStable (s : List ℚ) : List ℕ :=
  List.insertionSort (rankLe s) (List.range s.length)

/-- `np.argsort(scores)[::-1]`. -/
def rankedDesc (s : List ℚ) : List ℕ :=
  (argsortStable s).reverse

/-- The keyword options of `TextSummarizer.summarize`. -/
structure Opts where
  min_words : ℕ
  max_words : ℕ
  max_sentences : ℕ
deriving DecidableEq

/-- `set(sentence.lower().split())`. -/
def sentWordSet (s : Str) : Finset Str :=
  (splitW (pyLower s)).toFinset

/-- `len(words & used_words) / max(len(words), 1)`: the word overlap
between a candidate's word set and the already-used words. -/
def overlapOf (words used : Finset Str) : ℚ :=
  ((words ∩ used).card : ℚ) / ((max words.card 1 : ℕ) : ℚ)

/-- The selection loop of `TextSummarizer.summarize`: walk the ranked
indices; skip a candidate whose overlap exceeds `0.6`; otherwise
append it, union its words, add its word count, and stop once the
word floor or the sentence ceiling is reached. -/
def selectGo (sentences : List Str) (opts : Opts) :
    List ℕ → List (ℕ × Str) → Finset Str → ℕ → List (ℕ × Str)
  | [], sel, _, _ => sel
  | idx :: rest, sel, used, wc =>
    let sentence := sentences.getD idx []
    let words := sentWordSet sentence
    if overlapOf words used > (0.6 : ℚ) then
      selectGo sentences opts rest sel used wc
    else
      let sel' := sel ++ [(idx, sentence)]
      let used' := used ∪ words
      let wc' := wc + wordCount sentence
      if opts.min_words ≤ wc' ∨ opts.max_sentences ≤ sel'.length then sel'
      else selectGo sentences opts rest sel' used' wc'

/-- The comparison used by `selected.sort(key=lambda x: x[0])`. -/
def idxLe (a b : ℕ × Str) : Prop :=
  a.1 ≤ b.1

instance : DecidableRel idxLe := fun a b => by
  unfold idxLe; infer_instance

instance : IsTotal (ℕ × Str) idxLe where
  total a b := Nat.le_total a.1 b.1

instance : IsTrans (ℕ × Str) idxLe where
  trans _ _ _ h1 h2 := Nat.le_trans h1 h2

/-- `selected.sort(key=lambda x: x[0])` (a stable sort on the original
sentence index). -/
def sortSel (sel : List (ℕ × Str)) : List (ℕ × Str) :=
  List.insertionSort idxLe sel

/-- The selection produced for a text: the loop run over the ranked
indices starting from an empty selection, empty used-word set and
zero word count. -/
def selectionOf (W : List Str → ℕ → ℕ → ℚ) (text : Str) (opts : Opts) : List (ℕ × Str) :=
  let sentences := splitSentences text
  selectGo sentences opts (rankedDesc (scoreArr W sentences)) [] ∅ 0

/-- The selection re-sorted into original document order. -/
def selectedSorted (W : List Str → ℕ → ℕ → ℚ) (text : Str) (opts : Opts) : List (ℕ × Str) :=
  sortSel (selectionOf W text opts)

/-- `" ".join(s for _, s in selected)`: the assembled summary before
the word-budget check. -/
def assembled (W : List Str → ℕ → ℕ → ℚ) (text : Str) (opts : Opts) : Str :=
  joinSp ((selectedSorted W text opts).map Prod.snd)

/-- `TextSummarizer.summarize`. A raised exception (from the
vectorizer inside `_score`) is `Except.error`. -/
def summarize (W : List Str → ℕ → ℕ → ℚ) (text : Str) (opts : Opts) : Except PyError Str :=
  let sentences := splitSentences text
  if sentences = [] then .ok []
  else
    let full_text := joinSp sentences
    if wordCount full_text ≤ opts.min_words then .ok (pyStrip full_text)
    else
      match fitTransformCheck sentences with
      | .error e => .error e
      | .ok _ =>
        let summary := assembled W text opts
        let words := splitW summary
        if opts.max_words < words.length then
          .ok (pyRstrip (joinSp (words.take opts.max_words)) ++ ['…'])
        else
          .ok summary

/-- The state of a `TextSummarizer` instance: the vectorizer object
kept on `self`, holding the vocabulary of the last fit (if any).
`fit_transform` refits from scratch on every call, which is what
makes the result independent of this state. -/
structure TextSummarizer where
  fittedVocab : Option (List Str)
deriving DecidableEq

/-- A freshly constructed `TextSummarizer()`. -/
def TextSummarizer.init : TextSummarizer :=
  ⟨none⟩

/-- `summarize` with the instance state threaded explicitly: the
vectorizer state is replaced by the vocabulary fitted from the
current sentences whenever the scoring stage runs, and the returned
string is the pure `summarize` result. -/
def summarizeSt (W : List Str → ℕ → ℕ → ℚ) (self : TextSummarizer) (text : Str)
    (opts : Opts) : TextSummarizer × Except PyError Str :=
  let sentences := splitSentences text
  let scoringReached : Bool :=
    ¬ sentences = [] ∧ opts.min_words < wordCount (joinSp sentences)
  let self' :=
    if scoringReached then
      match fitTransformCheck sentences with
      | .ok kept => ⟨some kept⟩
      | .error _ => self
    else self
  (self', summarize W text opts)

/-- A word as produced by `str.split()`: non-empty and containing no
whitespace character. -/
def WordLike (w : Str) : Prop :=
  w ≠ [] ∧ ∀ c ∈ w, ¬ isPySpace c

/-- A string with no leading and no trailing whitespace (the shape of
`str.strip()` output). -/
def Stripped (s : Str) : Prop :=
  (∀ c, s.head? = some c → ¬ isPySpace c) ∧ (∀ c, s.getLast? = some c → ¬ isPySpace c)

/-! ## Lemmas about the string primitives -/

theorem runsOf_cons_not {keep : Char → Bool} {c : Char} (cs : Str) (hc : keep c = false) :
    runsOf keep (c :: cs) = runsOf keep cs := by
  simp [runsOf, hc]

theorem runsOf_single {keep : Char → Bool} {c : Char} (hc : keep c = true) :
    runsOf keep [c] = [[c]] := by
  simp [runsOf, hc]

theorem runsOf_cons_cons_not {keep : Char → Bool} {c d : Char} (ds : Str)
    (hc : keep c = true) (hd : keep d = false) :
    runsOf keep (c :: d :: ds) = [c] :: runsOf keep (d :: ds) := by
  simp [runsOf, hc, hd]

theorem runsOf_cons_cons_keep {keep : Char → Bool} {c d : Char} (ds : Str)
    (hc : keep c = true) (hd : keep d = true) :
    runsOf keep (c :: d :: ds) =
      match runsOf keep (d :: ds) with
      | w :: ws => (c :: w) :: ws
      | [] => [[c]] := by
  simp [runsOf, hc, hd]

theorem wordLike_of_mem_runsOf {keep : Char → Bool} :
    ∀ {l w : Str}, w ∈ runsOf keep l → w ≠ [] ∧ ∀ c ∈ w, keep c = true := by
  intro l
  induction l with
  | nil => intro w hw; simp [runsOf] at hw
  | cons c cs ih =>
    intro w hw
    by_cases hc : keep c = true
    · cases cs with
      | nil =>
        rw [runsOf_single hc] at hw
        simp only [List.mem_singleton] at hw
        subst hw
        exact ⟨by simp, by simpa using hc⟩
      | cons d ds =>
        by_cases hd : keep d = true
        · rw [runsOf_cons_cons_keep ds hc hd] at hw
          cases hsplit : runsOf keep (d :: ds) with
          | nil =>
            rw [hsplit] at hw
            simp only [List.mem_singleton] at hw
            subst hw
            exact ⟨by simp, by simpa using hc⟩
          | cons v vs =>
            rw [hsplit] at hw
            rcases List.mem_cons.mp hw with h | h
            · subst h
              have hv : v ∈ runsOf keep (d :: ds) := by
                rw [hsplit]; exact List.mem_cons_self _ _
              have hv' := ih hv
              refine ⟨by simp, ?_⟩
              intro x hx
              rcases List.mem_cons.mp hx with rfl | hx
              · exact hc
              · exact hv'.2 x hx
            · have hv : w ∈ runsOf keep (d :: ds) := by
                rw [hsplit]; exact List.mem_cons_of_mem _ h
              exact ih hv
        · have hd' : keep d = false := by simpa using hd
          rw [runsOf_cons_cons_not ds hc hd'] at hw
          rcases List.mem_cons.mp hw with h | h
          · subst h; exact ⟨by simp, by simpa using hc⟩
          · exact ih h
    · have hc' : keep c = false := by simpa using hc
      rw [runsOf_cons_not cs hc'] at hw
      exact ih hw

theorem runsOf_all_keep {keep : Char → Bool} :
    ∀ {w : Str}, w ≠ [] → (∀ c ∈ w, keep c = true) → runsOf keep w = [w] := by
  intro w
  induction w with
  | nil => intro h; exact absurd rfl h
  | cons c cs ih =>
    intro _ hall
    have hc : keep c = true := hall c (List.mem_cons_self _ _)
    cases cs with
    | nil => exact runsOf_single hc
    | cons d ds =>
      have hd : keep d = true := hall d (by simp)
      rw [runsOf_cons_cons_keep ds hc hd]
      have hrec : runsOf keep (d :: ds) = [d :: ds] :=
        ih (by simp) (fun x hx => hall x (List.mem_cons_of_mem _ hx))
      rw [hrec]

theorem runsOf_append_sep {keep : Char → Bool} {sep : Char} (hsep : keep sep = false) :
    ∀ {w : Str} (t : Str), w ≠ [] → (∀ c ∈ w, keep c = true) →
      runsOf keep (w ++ sep :: t) = w :: runsOf keep t := by
  intro w
  induction w with
  | nil => intro t h; exact absurd rfl h
  | cons c cs ih =>
    intro t _ hall
    have hc : keep c = true := hall c (List.mem_cons_self _ _)
    cases cs with
    | nil =>
      rw [List.cons_append, List.nil_append]
      rw [runsOf_cons_cons_not t hc hsep, runsOf_cons_not t hsep]
    | cons d ds =>
      have hd : keep d = true := hall d (by simp)
      rw [List.cons_append, List.cons_append]
      rw [runsOf_cons_cons_keep _ hc hd]
      have hrec := ih t (by simp) (fun x hx => hall x (List.mem_cons_of_mem _ hx))
      rw [List.cons_append] at hrec
      rw [hrec]

theorem splitW_words {s : Str} {w : Str} (hw : w ∈ splitW s) : WordLike w := by
  have h' := @wordLike_of_mem_runsOf (fun c => !isPySpace c) s w hw
  refine ⟨h'.1, ?_⟩
  intro c hc
  have hb := h'.2 c hc
  simp only [Bool.not_eq_eq_eq_not, Bool.not_true] at hb
  simp [hb]

theorem splitW_joinSp : ∀ {ws : List Str}, (∀ w ∈ ws, WordLike w) → splitW (joinSp ws) = ws := by
  intro ws
  induction ws with
  | nil => intro _; rfl
  | cons w rest ih =>
    intro hall
    have hw : WordLike w := hall w (List.mem_cons_self _ _)
    have hkeep : ∀ c ∈ w, (!isPySpace c) = true := by
      intro c hc; simpa using hw.2 c hc
    cases rest with
    | nil => exact runsOf_all_keep hw.1 hkeep
    | cons x rest' =>
      show runsOf _ (w ++ ' ' :: joinSp (x :: rest')) = _
      rw [runsOf_append_sep (by simp [isPySpace]) _ hw.1 hkeep]
      have hrec := ih (fun v hv => hall v (List.mem_cons_of_mem _ hv))
      exact congrArg (w :: ·) hrec

theorem splitW_joinSp_append_char {ch : Char} (hch : ¬ isPySpace ch) :
    ∀ {ws : List Str}, ws ≠ [] → (∀ w ∈ ws, WordLike w) →
      (splitW (joinSp ws ++ [ch])).length = ws.length := by
  intro ws
  induction ws with
  | nil => intro h; exact absurd rfl h
  | cons w rest ih =>
    intro _ hall
    have hw : WordLike w := hall w (List.mem_cons_self _ _)
    have hkeep : ∀ c ∈ w ++ [ch], (!isPySpace c) = true := by
      intro c hc
      rcases List.mem_append.mp hc with h | h
      · simpa using hw.2 c h
      · simp only [List.mem_singleton] at h; subst h; simpa using hch
    cases rest with
    | nil =>
      show (runsOf _ (joinSp [w] ++ [ch])).length = 1
      have : joinSp [w] ++ [ch] = w ++ [ch] := rfl
      rw [this, runsOf_all_keep (by simp) hkeep]
      rfl
    | cons x rest' =>
      have hjoin : joinSp (w :: x :: rest') ++ [ch] =
          w ++ ' ' :: (joinSp (x :: rest') ++ [ch]) := by
        show (w ++ ' ' :: joinSp (x :: rest')) ++ [ch] = _
        simp
      rw [hjoin]
      show (runsOf _ (w ++ ' ' :: (joinSp (x :: rest') ++ [ch]))).length = _
      rw [runsOf_append_sep (by simp [isPySpace]) _ hw.1
        (fun c hc => by simpa using hw.2 c hc)]
      have hrec := ih (by simp) (fun v hv => hall v (List.mem_cons_of_mem _ hv))
      simp only [List.length_cons]
      have hrec' : (runsOf (fun c => !isPySpace c) (joinSp (x :: rest') ++ [ch])).length =
          rest'.length + 1 := hrec
      rw [hrec']

theorem joinSp_ne_nil {w : Str} (hw : w ≠ []) (ws : List Str) : joinSp (w :: ws) ≠ [] := by
  cases ws with
  | nil => exact hw
  | cons x rest =>
    show w ++ ' ' :: joinSp (x :: rest) ≠ []
    simp

theorem joinSp_head? {w : Str} (ws : List Str) (hw : w ≠ []) :
    (joinSp (w :: ws)).head? = w.head? := by
  cases ws with
  | nil => rfl
  | cons x rest =>
    show (w ++ ' ' :: joinSp (x :: rest)).head? = w.head?
    cases w with
    | nil => exact absurd rfl hw
    | cons c cs => rfl

theorem joinSp_getLast? :
    ∀ {ws : List Str}, ws ≠ [] → (∀ w ∈ ws, w ≠ []) →
      ∃ w, w ∈ ws ∧ (joinSp ws).getLast? = w.getLast? := by
  intro ws
  induction ws with
  | nil => intro h; exact absurd rfl h
  | cons w rest ih =>
    intro _ hall
    cases rest with
    | nil => exact ⟨w, List.mem_cons_self _ _, rfl⟩
    | cons x rest' =>
      obtain ⟨v, hv, hlast⟩ := ih (by simp) (fun u hu => hall u (List.mem_cons_of_mem _ hu))
      refine ⟨v, List.mem_cons_of_mem _ hv, ?_⟩
      show (w ++ ' ' :: joinSp (x :: rest')).getLast? = v.getLast?
      rw [List.getLast?_append]
      have hne : joinSp (x :: rest') ≠ [] := joinSp_ne_nil (hall x (by simp)) rest'
      have h1 : (' ' :: joinSp (x :: rest')).getLast? = (joinSp (x :: rest')).getLast? := by
        cases hj : joinSp (x :: rest') with
        | nil => exact absurd hj hne
        | cons a as => rw [List.getLast?_cons_cons]
      rw [h1, hlast]
      cases hv' : v.getLast? with
      | none =>
        have : v ≠ [] := hall v (List.mem_cons_of_mem _ hv)
        rw [List.getLast?_eq_getLast v this] at hv'
        exact absurd hv' (by simp)
      | some c => rfl

theorem pyRstrip_append_nonspace {ch : Char} (hch : ¬ isPySpace ch) :
    ∀ (l : Str), pyRstrip (l ++ [ch]) = l ++ [ch] := by
  intro l
  induction l with
  | nil =>
    show pyRstrip [ch] = [ch]
    rw [pyRstrip, pyRstrip, if_neg hch]
  | cons a as ih =>
    show pyRstrip (a :: (as ++ [ch])) = _
    rw [pyRstrip, ih]
    cases h : as ++ [ch] with
    | nil => exact absurd h (by simp)
    | cons d ds => simp [h]

theorem pyRstrip_eq_self {l : Str} (h : ∀ c, l.getLast? = some c → ¬ isPySpace c) :
    pyRstrip l = l := by
  cases hl : l with
  | nil => rfl
  | cons a as =>
    have hne : l ≠ [] := by rw [hl]; simp
    have hc : ¬ isPySpace (l.getLast hne) :=
      h _ (List.getLast?_eq_getLast l hne)
    have hdecomp := List.dropLast_append_getLast hne
    rw [← hl, ← hdecomp]
    exact pyRstrip_append_nonspace hc _

theorem pyLstrip_eq_self {l : Str} (h : ∀ c, l.head? = some c → ¬ isPySpace c) :
    pyLstrip l = l := by
  cases l with
  | nil => rfl
  | cons a as =>
    have ha : ¬ isPySpace a := h a rfl
    show List.dropWhile isPySpace (a :: as) = a :: as
    rw [List.dropWhile_cons, if_neg (by simpa using ha)]

theorem pyStrip_eq_self {l : Str} (h : Stripped l) : pyStrip l = l := by
  unfold pyStrip
  rw [pyLstrip_eq_self h.1]
  exact pyRstrip_eq_self h.2

theorem pyRstrip_head? : ∀ {l : Str} {c : Char}, (pyRstrip l).head? = some c → l.head? = some c := by
  intro l
  induction l with
  | nil => intro c h; simp [pyRstrip] at h
  | cons a as ih =>
    intro c h
    rw [pyRstrip] at h
    cases hr : pyRstrip as with
    | nil =>
      rw [hr] at h
      by_cases ha : isPySpace a
      · rw [if_pos ha] at h; simp at h
      · rw [if_neg ha] at h; simpa using h
    | cons d ds =>
      rw [hr] at h
      simpa using h

theorem pyRstrip_getLast?_nonspace :
    ∀ {l : Str} {c : Char}, (pyRstrip l).getLast? = some c → ¬ isPySpace c := by
  intro l
  induction l with
  | nil => intro c h; simp [pyRstrip] at h
  | cons a as ih =>
    intro c h
    rw [pyRstrip] at h
    cases hr : pyRstrip as with
    | nil =>
      rw [hr] at h
      by_cases ha : isPySpace a
      · rw [if_pos ha] at h; simp at h
      · rw [if_neg ha] at h
        simp only [List.getLast?] at h
        have : a = c := by simpa [List.getLast?] using h
        subst this
        exact ha
    | cons d ds =>
      rw [hr] at h
      rw [List.getLast?_cons_cons] at h
      exact ih (hr ▸ h)

theorem dropWhile_head?_not {p : Char → Bool} :
    ∀ {l : Str} {c : Char}, (l.dropWhile p).head? = some c → ¬ p c := by
  intro l
  induction l with
  | nil => intro c h; simp at h
  | cons a as ih =>
    intro c h
    rw [List.dropWhile_cons] at h
    by_cases ha : p a
    · rw [if_pos ha] at h; exact ih h
    · rw [if_neg ha] at h
      simp only [List.head?_cons, Option.some.injEq] at h
      subst h
      simpa using ha

theorem stripped_pyStrip (raw : Str) : Stripped (pyStrip raw) := by
  constructor
  · intro c hc
    have h1 : (pyLstrip raw).head? = some c := pyRstrip_head? hc
    have := @dropWhile_head?_not isPySpace raw c h1
    simpa using this
  · intro c hc
    exact pyRstrip_getLast?_nonspace hc

theorem mem_splitSentences {text : Str} {s : Str} (hs : s ∈ splitSentences text) :
    50 < s.length ∧ Stripped s := by
  unfold splitSentences at hs
  have h1 := List.mem_filter.mp hs
  have h2 : 50 < s.length := by simpa using h1.2
  obtain ⟨raw, _, hraw⟩ := List.mem_map.mp h1.1
  exact ⟨h2, hraw ▸ stripped_pyStrip raw⟩

/-! ## Lemmas about ranking and the selection loop -/

theorem argsortStable_perm (s : List ℚ) : List.Perm (argsortStable s) (List.range s.length) :=
  List.perm_insertionSort _ _

theorem rankedDesc_length (s : List ℚ) : (rankedDesc s).length = s.length := by
  unfold rankedDesc argsortStable
  rw [List.length_reverse, (List.perm_insertionSort _ _).length_eq, List.length_range]

theorem rankedDesc_nodup (s : List ℚ) : (rankedDesc s).Nodup := by
  unfold rankedDesc
  rw [List.nodup_reverse]
  exact ((argsortStable_perm s).nodup_iff).mpr (List.nodup_range _)

theorem mem_rankedDesc {s : List ℚ} {i : ℕ} (h : i ∈ rankedDesc s) : i < s.length := by
  unfold rankedDesc at h
  rw [List.mem_reverse] at h
  have := (argsortStable_perm s).mem_iff.mp h
  exact List.mem_range.mp this

theorem overlapOf_empty (used : Finset Str) : overlapOf ∅ used = 0 := by
  unfold overlapOf
  rw [Finset.empty_inter]
  simp

theorem selectGo_nil (sentences : List Str) (opts : Opts) (sel : List (ℕ × Str))
    (used : Finset Str) (wc : ℕ) : selectGo sentences opts [] sel used wc = sel :=
  rfl

theorem selectGo_cons (sentences : List Str) (opts : Opts) (idx : ℕ) (rest : List ℕ)
    (sel : List (ℕ × Str)) (used : Finset Str) (wc : ℕ) :
    selectGo sentences opts (idx :: rest) sel used wc =
      if overlapOf (sentWordSet (sentences.getD idx [])) used > (0.6 : ℚ) then
        selectGo sentences opts rest sel used wc
      else
        if opts.min_words ≤ wc + wordCount (sentences.getD idx []) ∨
            opts.max_sentences ≤ (sel ++ [(idx, sentences.getD idx [])]).length then
          sel ++ [(idx, sentences.getD idx [])]
        else
          selectGo sentences opts rest (sel ++ [(idx, sentences.getD idx [])])
            (used ∪ sentWordSet (sentences.getD idx []))
            (wc + wordCount (sentences.getD idx [])) :=
  rfl

theorem selectGo_mem_of_mem (sentences : List Str) (opts : Opts) :
    ∀ (l : List ℕ) (sel : List (ℕ × Str)) (used : Finset Str) (wc : ℕ) {x : ℕ × Str},
      x ∈ sel → x ∈ selectGo sentences opts l sel used wc := by
  intro l
  induction l with
  | nil => intro sel used wc x hx; exact hx
  | cons idx rest ih =>
    intro sel used wc x hx
    rw [selectGo_cons]
    split_ifs with h1 h2
    · exact ih sel used wc hx
    · exact List.mem_append_left _ hx
    · exact ih _ _ _ (List.mem_append_left _ hx)

theorem selectGo_mem_inv (sentences : List Str) (opts : Opts) :
    ∀ (l : List ℕ) (sel : List (ℕ × Str)) (used : Finset Str) (wc : ℕ) {y : ℕ × Str},
      y ∈ selectGo sentences opts l sel used wc →
        y ∈ sel ∨ (y.1 ∈ l ∧ y.2 = sentences.getD y.1 []) := by
  intro l
  induction l with
  | nil => intro sel used wc y hy; exact Or.inl hy
  | cons idx rest ih =>
    intro sel used wc y hy
    rw [selectGo_cons] at hy
    split_ifs at hy with h1 h2
    · rcases ih sel used wc hy with h | ⟨h, h'⟩
      · exact Or.inl h
      · exact Or.inr ⟨List.mem_cons_of_mem _ h, h'⟩
    · rcases List.mem_append.mp hy with h | h
      · exact Or.inl h
      · simp only [List.mem_singleton] at h
        subst h
        exact Or.inr ⟨List.mem_cons_self _ _, rfl⟩
    · rcases ih _ _ _ hy with h | ⟨h, h'⟩
      · rcases List.mem_append.mp h with h | h
        · exact Or.inl h
        · simp only [List.mem_singleton] at h
          subst h
          exact Or.inr ⟨List.mem_cons_self _ _, rfl⟩
      · exact Or.inr ⟨List.mem_cons_of_mem _ h, h'⟩

theorem selectGo_nodup_fst (sentences : List Str) (opts : Opts) :
    ∀ (l : List ℕ) (sel : List (ℕ × Str)) (used : Finset Str) (wc : ℕ),
      ((sel.map Prod.fst) ++ l).Nodup →
        ((selectGo sentences opts l sel used wc).map Prod.fst).Nodup := by
  intro l
  induction l with
  | nil =>
    intro sel used wc h
    simpa using h
  | cons idx rest ih =>
    intro sel used wc h
    rw [selectGo_cons]
    split_ifs with h1 h2
    · apply ih
      exact h.sublist ((List.sublist_cons_self idx rest).append_left _)
    · rw [List.map_append]
      exact h.sublist (((List.nil_sublist rest).cons₂ idx).append_left _)
    · apply ih
      simpa [List.map_append, List.append_assoc] using h

theorem selectGo_head_accept (sentences : List Str) (opts : Opts) (idx : ℕ)
    (rest : List ℕ) (sel : List (ℕ × Str)) (used : Finset Str) (wc : ℕ)
    (h : ¬ overlapOf (sentWordSet (sentences.getD idx [])) used > (0.6 : ℚ)) :
    (idx, sentences.getD idx []) ∈ selectGo sentences opts (idx :: rest) sel used wc := by
  rw [selectGo_cons, if_neg h]
  split_ifs with h2
  · exact List.mem_append_right _ (List.mem_singleton.mpr rfl)
  · exact selectGo_mem_of_mem sentences opts _ _ _ _
      (List.mem_append_right _ (List.mem_singleton.mpr rfl))

theorem selectGo_head_skip (sentences : List Str) (opts : Opts) (idx : ℕ)
    (rest : List ℕ) (sel : List (ℕ × Str)) (used : Finset Str) (wc : ℕ)
    (h : overlapOf (sentWordSet (sentences.getD idx [])) used > (0.6 : ℚ)) :
    selectGo sentences opts (idx :: rest) sel used wc =
      selectGo sentences opts rest sel used wc := by
  rw [selectGo_cons, if_pos h]

theorem sortSel_perm (sel : List (ℕ × Str)) : List.Perm (sortSel sel) sel :=
  List.perm_insertionSort _ _

theorem sortSel_sorted (sel : List (ℕ × Str)) : List.Sorted idxLe (sortSel sel) :=
  List.sorted_insertionSort _ _

/-! ## Lemmas about the assembled pipeline -/

theorem scoreArr_length (W : List Str → ℕ → ℕ → ℚ) (sentences : List Str) :
    (scoreArr W sentences).length = sentences.length := by
  unfold scoreArr
  rw [List.length_map, List.length_range]

theorem overlapOf_used_empty (words : Finset Str) : overlapOf words ∅ = 0 := by
  unfold overlapOf
  rw [Finset.inter_empty]
  simp

theorem summarize_eq (W : List Str → ℕ → ℕ → ℚ) (text : Str) (opts : Opts) :
    summarize W text opts =
      if splitSentences text = [] then .ok []
      else if wordCount (joinSp (splitSentences text)) ≤ opts.min_words then
        .ok (pyStrip (joinSp (splitSentences text)))
      else
        match fitTransformCheck (splitSentences text) with
        | .error e => .error e
        | .ok _ =>
          if opts.max_words < (splitW (assembled W text opts)).length then
            .ok (pyRstrip (joinSp ((splitW (assembled W text opts)).take opts.max_words)) ++ ['…'])
          else .ok (assembled W text opts) :=
  rfl

theorem sentence_ne_nil {text : Str} {s : Str} (hs : s ∈ splitSentences text) : s ≠ [] := by
  have h := (mem_splitSentences hs).1
  intro hnil
  rw [hnil] at h
  simp at h

theorem stripped_joinSp_sentences {text : Str} (h : splitSentences text ≠ []) :
    Stripped (joinSp (splitSentences text)) := by
  constructor
  · intro c hc
    cases hsp : splitSentences text with
    | nil => exact absurd hsp h
    | cons s rest =>
      have hs0 : s ∈ splitSentences text := by rw [hsp]; exact List.mem_cons_self _ _
      rw [hsp, joinSp_head? rest (sentence_ne_nil hs0)] at hc
      exact ((mem_splitSentences hs0).2).1 c hc
  · intro c hc
    obtain ⟨w, hw, hlast⟩ := joinSp_getLast? h (fun w hw => sentence_ne_nil hw)
    rw [hlast] at hc
    exact ((mem_splitSentences hw).2).2 c hc

theorem pyRstrip_joinSp_words {ws : List Str} (hne : ws ≠ []) (hall : ∀ w ∈ ws, WordLike w) :
    pyRstrip (joinSp ws) = joinSp ws := by
  apply pyRstrip_eq_self
  intro c hc
  obtain ⟨w, hw, hlast⟩ := joinSp_getLast? hne (fun w h => (hall w h).1)
  rw [hlast] at hc
  have hwne : w ≠ [] := (hall w hw).1
  have hcw : c ∈ w := by
    rw [List.getLast?_eq_getLast w hwne] at hc
    have hce : c = w.getLast hwne := by simpa using hc.symm
    rw [hce]
    exact List.getLast_mem hwne
  exact (hall w hw).2 c hcw

theorem selectionOf_mem {W : List Str → ℕ → ℕ → ℚ} {text : Str} {opts : Opts}
    {y : ℕ × Str} (hy : y ∈ selectionOf W text opts) :
    y.1 < (splitSentences text).length ∧ y.2 = (splitSentences text).getD y.1 [] := by
  unfold selectionOf at hy
  rcases selectGo_mem_inv _ _ _ _ _ _ hy with h | ⟨h, h'⟩
  · simp at h
  · refine ⟨?_, h'⟩
    have hlt := mem_rankedDesc h
    rwa [scoreArr_length] at hlt

/-! ## The claims -/

/-- **C6** (confirmed): for every input that is the empty string, or whose
segmentation yields no fragment with trimmed length above the minimum
character threshold, `summarize` returns the empty string without
reaching the scoring stage: the result is `.ok ""` for every weight
parameter `W`, so no exception can be raised. -/
theorem C6_empty_input (W : List Str → ℕ → ℕ → ℚ) (text : Str) (opts : Opts)
    (h : splitSentences text = []) : summarize W text opts = .ok [] := by
  rw [summarize_eq, if_pos h]

/-- Witness for C6 at the empty string and at a text with only short
fragments. -/
theorem C6_empty_input_witness :
    splitSentences "".data = [] ∧ splitSentences "Too short. Nope.".data = [] ∧
      summarize (fun _ _ _ => 0) "".data ⟨100, 120, 10⟩ = .ok [] ∧
      summarize (fun _ _ _ => 0) "Too short. Nope.".data ⟨100, 120, 10⟩ = .ok [] :=
  ⟨by decide, by decide, C6_empty_input _ _ _ (by decide), C6_empty_input _ _ _ (by decide)⟩

set_option maxRecDepth 2000000 in
/-- **C3** (amended): the passthrough compares `min_words` against the word
count of the kept sentences (fragments of at most 50 characters are already
dropped), and returns the kept sentences joined by single spaces — the
Document as-is — not the whitespace-normalized raw input; no ellipsis is
appended and scoring is never consulted (the result is independent of `W`). -/
theorem C3_short_source (W : List Str → ℕ → ℕ → ℚ) (text : Str) (opts : Opts)
    (hne : splitSentences text ≠ [])
    (hle : wordCount (joinSp (splitSentences text)) ≤ opts.min_words) :
    summarize W text opts = .ok (joinSp (splitSentences text)) := by
  rw [summarize_eq, if_neg hne, if_pos hle,
    pyStrip_eq_self (stripped_joinSp_sentences hne)]

/-- Witness for C3 on a one-sentence document below the word floor. -/
theorem C3_short_source_witness :
    splitSentences "This sentence is definitely longer than the fifty character cutoff.".data ≠ [] ∧
      wordCount (joinSp (splitSentences "This sentence is definitely longer than the fifty character cutoff.".data)) ≤ 100 ∧
      summarize (fun _ _ _ => 0) "This sentence is definitely longer than the fifty character cutoff.".data ⟨100, 120, 10⟩ =
        .ok (joinSp (splitSentences "This sentence is definitely longer than the fifty character cutoff.".data)) :=
  ⟨by decide, by decide, C3_short_source _ _ _ (by decide) (by decide)⟩

set_option maxRecDepth 2000000 in
/-- **C3** counterexample: for the input `"Hi there. <long sentence>"` the
total word count (10) is at most `min_words = 100`, yet the output is
neither the whitespace-normalized input nor its stripped form: the
fragment `"Hi there."` (at most 50 characters) is discarded by
segmentation, so the claimed verbatim passthrough of the whole input is
false. -/
theorem C3_counterexample :
    (splitW (collapseWs "Hi there. This sentence is definitely longer than the fifty character cutoff.".data)).length ≤ 100 ∧
      summarize (fun _ _ _ => 0) "Hi there. This sentence is definitely longer than the fifty character cutoff.".data ⟨100, 120, 10⟩ ≠
        .ok (collapseWs "Hi there. This sentence is definitely longer than the fifty character cutoff.".data) ∧
      summarize (fun _ _ _ => 0) "Hi there. This sentence is definitely longer than the fifty character cutoff.".data ⟨100, 120, 10⟩ ≠
        .ok (pyStrip (collapseWs "Hi there. This sentence is definitely longer than the fifty character cutoff.".data)) := by
  with_unfolding_all decide

set_option maxRecDepth 2000000 in
/-- **C9** (confirmed): the returned string of the state-threaded summarizer
is identical for any two instance states (the vectorizer refits from the
current input alone, so no state left by earlier calls influences the
result), re-running on the same input right after a previous call returns
byte-identical output, and the result always equals the pure function
`summarize` of the input and options alone. -/
theorem C9_deterministic_stateless (W : List Str → ℕ → ℕ → ℚ) (text : Str) (opts : Opts)
    (s₁ s₂ : TextSummarizer) :
    (summarizeSt W s₁ text opts).2 = (summarizeSt W s₂ text opts).2 ∧
      (summarizeSt W (summarizeSt W s₁ text opts).1 text opts).2 =
        (summarizeSt W s₁ text opts).2 ∧
      (summarizeSt W s₁ text opts).2 = summarize W text opts :=
  ⟨rfl, rfl, rfl⟩

/-- **C5** (amended): the ranking `np.argsort(scores)[::-1]` is a
permutation of all sentence indices in which scores are non-increasing
(score descending). When two sentences have identical scores, no tie
order is guaranteed by the program — numpy's default argsort is not
documented as stable — and in particular the claimed lower-index-first
tie-break is false: with two tied sentences the ranking puts the higher
original index first (see the counterexample). These two facts hold for
any correct argsort output, so they do not depend on the model's tie
order. -/
theorem C5_ranking_desc (s : List ℚ) :
    List.Perm (rankedDesc s) (List.range s.length) ∧
      List.Sorted (fun i j => s.getD j 0 ≤ s.getD i 0) (rankedDesc s) := by
  constructor
  · unfold rankedDesc
    exact (List.reverse_perm _).trans (argsortStable_perm s)
  · have hs : List.Sorted (rankLe s) (argsortStable s) := List.sorted_insertionSort _ _
    have hrev : List.Pairwise (fun i j => rankLe s j i) (rankedDesc s) := by
      unfold rankedDesc
      exact List.pairwise_reverse.mpr hs
    apply hrev.imp
    intro i j h
    rcases h with hlt | ⟨heq, _⟩
    · exact le_of_lt hlt
    · exact le_of_eq heq

/-- **C5** counterexample: on the tied score array `[1, 1]` the ranking is
`[1, 0]` — the higher index first — so the ranking is not sorted by the
claimed lower-index-first tie-break relation (which would give `[0, 1]`). -/
theorem C5_counterexample :
    rankedDesc [(1 : ℚ), 1] = [1, 0] ∧
      ¬ List.Sorted
          (fun i j => [(1 : ℚ), 1].getD j 0 < [(1 : ℚ), 1].getD i 0 ∨
            ([(1 : ℚ), 1].getD i 0 = [(1 : ℚ), 1].getD j 0 ∧ i < j))
          (rankedDesc [(1 : ℚ), 1]) := by
  with_unfolding_all decide

set_option maxRecDepth 2000000 in
/-- **C1** (amended): when the vectorizer check fails — an empty vocabulary,
`max_df * n` corresponding to fewer documents than `min_df`, or no terms
remaining after pruning — `summarize` raises: the vectorizer error
propagates out of `_score` instead of any fallback to uniform scores (the
caller's `try/except` is what catches it); whenever scoring succeeds the
score array has exactly one entry per input sentence. -/
theorem C1_degenerate_raises (W : List Str → ℕ → ℕ → ℚ) (text : Str) (opts : Opts)
    (e : PyError)
    (h1 : splitSentences text ≠ [])
    (h2 : opts.min_words < wordCount (joinSp (splitSentences text)))
    (h3 : fitTransformCheck (splitSentences text) = .error e) :
    summarize W text opts = .error e ∧
      (scoreArr W (splitSentences text)).length = (splitSentences text).length := by
  refine ⟨?_, scoreArr_length W _⟩
  rw [summarize_eq, if_neg h1, if_neg (not_le.mpr h2), h3]

set_option maxRecDepth 2000000 in
/-- Witness for C1: a concrete two-sentence document for which the check
fails with the `max_df corresponds to < documents than min_df` error. -/
theorem C1_degenerate_raises_witness :
    splitSentences "The economy features numerous startling developments today. Parliament will debate the new budget proposal tomorrow morning.".data ≠ [] ∧
      5 < wordCount (joinSp (splitSentences "The economy features numerous startling developments today. Parliament will debate the new budget proposal tomorrow morning.".data)) ∧
      summarize (fun _ _ _ => 0) "The economy features numerous startling developments today. Parliament will debate the new budget proposal tomorrow morning.".data ⟨5, 120, 10⟩ =
        .error .maxDfLtMinDf :=
  ⟨by decide, by decide,
    (C1_degenerate_raises _ _ _ _ (by decide) (by decide) (by with_unfolding_all decide)).1⟩

set_option maxRecDepth 2000000 in
/-- **C1** counterexample: a non-empty sentence list (two sentences, both
kept by segmentation) on which `summarize` raises — the vectorizer
`ValueError` propagates — refuting that scoring falls back to uniform
scores and never fails. -/
theorem C1_counterexample :
    splitSentences "The economy features numerous startling developments today. Parliament will debate the new budget proposal tomorrow morning.".data ≠ [] ∧
      summarize (fun _ _ _ => 0) "The economy features numerous startling developments today. Parliament will debate the new budget proposal tomorrow morning.".data ⟨5, 120, 10⟩ =
        .error .maxDfLtMinDf := by
  with_unfolding_all decide

/-- **C4** (confirmed): the index sequence of `selectedSorted` — exactly the
list whose sentence texts `summarize` joins into the output — is strictly
increasing for every input, options and score weights, so selected
sentences always appear in the output in ascending original order,
regardless of the score order in which the selector accepted them. -/
theorem C4_order_preservation (W : List Str → ℕ → ℕ → ℚ) (text : Str) (opts : Opts) :
    List.Sorted (· < ·) ((selectedSorted W text opts).map Prod.fst) := by
  have hsorted : List.Sorted idxLe (selectedSorted W text opts) := sortSel_sorted _
  have hnodup_sel : ((selectionOf W text opts).map Prod.fst).Nodup := by
    unfold selectionOf
    apply selectGo_nodup_fst
    simpa using rankedDesc_nodup (scoreArr W (splitSentences text))
  have hperm : List.Perm ((selectedSorted W text opts).map Prod.fst)
      ((selectionOf W text opts).map Prod.fst) :=
    (sortSel_perm _).map _
  have hnodup : ((selectedSorted W text opts).map Prod.fst).Nodup :=
    hperm.nodup_iff.mpr hnodup_sel
  have hne : List.Pairwise (fun a b => a.1 ≠ b.1) (selectedSorted W text opts) :=
    List.pairwise_map.mp hnodup
  have hcomb := hsorted.and hne
  rw [List.Sorted, List.pairwise_map]
  apply hcomb.imp
  intro a b h
  have hle : a.1 ≤ b.1 := h.1
  exact lt_of_le_of_ne hle h.2

/-- **C8** (confirmed): the redundancy rule is total and division-safe:
the overlap of an empty word set is 0 (the denominator
`max(len(words), 1)` prevents a division by zero), an empty-word
candidate is never skipped since 0 does not exceed 0.6, and a candidate
at the head of the ranked list is excluded from the selection if and
only if its word-overlap against the current used-word set exceeds the
redundancy threshold 0.6. -/
theorem C8_redundancy_rule (sentences : List Str) (opts : Opts) (l : List ℕ)
    (sel : List (ℕ × Str)) (used : Finset Str) (wc : ℕ) (idx : ℕ)
    (hsel : idx ∉ sel.map Prod.fst) (hl : idx ∉ l) :
    overlapOf ∅ used = 0 ∧
      ¬ overlapOf ∅ used > (0.6 : ℚ) ∧
      (overlapOf (sentWordSet (sentences.getD idx [])) used > (0.6 : ℚ) →
        idx ∉ (selectGo sentences opts (idx :: l) sel used wc).map Prod.fst) ∧
      (¬ overlapOf (sentWordSet (sentences.getD idx [])) used > (0.6 : ℚ) →
        idx ∈ (selectGo sentences opts (idx :: l) sel used wc).map Prod.fst) := by
  refine ⟨overlapOf_empty used, ?_, ?_, ?_⟩
  · rw [overlapOf_empty]
    norm_num
  · intro h hmem
    rw [selectGo_head_skip _ _ _ _ _ _ _ h] at hmem
    obtain ⟨y, hy, hfst⟩ := List.mem_map.mp hmem
    rcases selectGo_mem_inv _ _ _ _ _ _ hy with hin | ⟨hin, _⟩
    · exact hsel (List.mem_map.mpr ⟨y, hin, hfst⟩)
    · rw [hfst] at hin
      exact hl hin
  · intro h
    exact List.mem_map.mpr
      ⟨(idx, sentences.getD idx []), selectGo_head_accept _ _ _ _ _ _ _ h, rfl⟩

set_option maxRecDepth 2000000 in
/-- Witness for C8 at a concrete one-sentence state with an empty
used-word set: the head candidate is accepted. -/
theorem C8_redundancy_rule_witness :
    (0 ∉ ([] : List (ℕ × Str)).map Prod.fst) ∧ (0 ∉ ([] : List ℕ)) ∧
      (overlapOf ∅ ∅ = 0 ∧
        ¬ overlapOf ∅ ∅ > (0.6 : ℚ) ∧
        (overlapOf (sentWordSet (["alpha beta gamma".data].getD 0 [])) ∅ > (0.6 : ℚ) →
          0 ∉ (selectGo ["alpha beta gamma".data] ⟨100, 120, 10⟩ [0] [] ∅ 0).map Prod.fst) ∧
        (¬ overlapOf (sentWordSet (["alpha beta gamma".data].getD 0 [])) ∅ > (0.6 : ℚ) →
          0 ∈ (selectGo ["alpha beta gamma".data] ⟨100, 120, 10⟩ [0] [] ∅ 0).map Prod.fst)) :=
  ⟨by decide, by decide, C8_redundancy_rule _ _ _ _ _ _ _ (by decide) (by decide)⟩

/-- **C7** (confirmed): for a document of `n ≥ 2` sentences, the score of
sentence `i` equals the sum of that sentence's term weights over the
pruned vocabulary multiplied by the positional multiplier
`1.6 - 0.9 * i / (n - 1)`, i.e. `high - (high - low) * i / (n - 1)`
linearly spaced from `high = 1.6` at the first sentence down to
`low = 0.7` at the last. -/
theorem C7_score_formula (W : List Str → ℕ → ℕ → ℚ) (sentences : List Str) (i : ℕ)
    (hn : 2 ≤ sentences.length) (hi : i < sentences.length) :
    (scoreArr W sentences).getD i 0 =
      (((List.range (keptVocab sentences).length).map (W sentences i)).sum) *
        ((1.6 : ℚ) - (0.9 : ℚ) * i / ((sentences.length : ℚ) - 1)) := by
  unfold scoreArr
  rw [List.getD_eq_getElem?_getD, List.getElem?_map, List.getElem?_range hi]
  simp only [Option.map_some', Option.getD_some]
  show tfidfRowSum W sentences i * linspace 1.6 0.7 sentences.length i = _
  unfold tfidfRowSum linspace
  rw [if_neg (by omega)]
  have hcoef : (0.7 : ℚ) - 1.6 = -(0.9 : ℚ) := by norm_num
  rw [hcoef]
  ring

set_option maxRecDepth 2000000 in
/-- Witness for C7 on a concrete three-sentence document whose pruned
vocabulary is non-trivial, at sentence index 1 with weights `t + 1`. -/
theorem C7_score_formula_witness :
    2 ≤ (List.map String.data ["economic reform today", "economic reform policy", "another different sentence daily"]).length ∧
      1 < (List.map String.data ["economic reform today", "economic reform policy", "another different sentence daily"]).length ∧
      (scoreArr (fun _ _ t => (t : ℚ) + 1) (List.map String.data ["economic reform today", "economic reform policy", "another different sentence daily"])).getD 1 0 =
        (((List.range (keptVocab (List.map String.data ["economic reform today", "economic reform policy", "another different sentence daily"])).length).map (fun (t : ℕ) => (t : ℚ) + 1)).sum) *
          ((1.6 : ℚ) - (0.9 : ℚ) * ((1 : ℕ) : ℚ) / (((List.map String.data ["economic reform today", "economic reform policy", "another different sentence daily"]).length : ℚ) - 1)) :=
  ⟨by decide, by decide, by
    exact C7_score_formula (fun _ _ t => (t : ℚ) + 1)
      (List.map String.data
        ["economic reform today", "economic reform policy", "another different sentence daily"])
      1 (by decide) (by decide)⟩

/-- **C10** (amended): provided scoring succeeds (`summarize` returns `.ok`
rather than propagating a vectorizer error), for every input with at
least one kept sentence and total word count above `min_words` the
selector accepts the head of the ranked list — its overlap against the
initially empty used-word set is 0, which never exceeds the threshold —
so the selection is non-empty and the returned summary is a non-empty
string; this holds even when `max_sentences = 0`, because the
sentence-count cap is checked only after a candidate has been accepted. -/
theorem C10_nonempty_output (W : List Str → ℕ → ℕ → ℚ) (text : Str) (opts : Opts)
    (out : Str)
    (h1 : splitSentences text ≠ [])
    (h2 : opts.min_words < wordCount (joinSp (splitSentences text)))
    (hok : summarize W text opts = .ok out) :
    (∀ i, (rankedDesc (scoreArr W (splitSentences text))).head? = some i →
        (i, (splitSentences text).getD i []) ∈ selectionOf W text opts) ∧
      selectionOf W text opts ≠ [] ∧ out ≠ [] := by
  have haccept : ∀ i, (rankedDesc (scoreArr W (splitSentences text))).head? = some i →
      (i, (splitSentences text).getD i []) ∈ selectionOf W text opts := by
    intro i hi
    cases hr : rankedDesc (scoreArr W (splitSentences text)) with
    | nil => rw [hr] at hi; simp at hi
    | cons j rest =>
      rw [hr] at hi
      simp only [List.head?_cons, Option.some.injEq] at hi
      subst hi
      show (j, (splitSentences text).getD j []) ∈
        selectGo (splitSentences text) opts
          (rankedDesc (scoreArr W (splitSentences text))) [] ∅ 0
      rw [hr]
      apply selectGo_head_accept
      rw [overlapOf_used_empty]
      norm_num
  have hselne : selectionOf W text opts ≠ [] := by
    cases hr : rankedDesc (scoreArr W (splitSentences text)) with
    | nil =>
      have hlen := rankedDesc_length (scoreArr W (splitSentences text))
      rw [hr, scoreArr_length] at hlen
      have hpos : 0 < (splitSentences text).length := List.length_pos.mpr h1
      simp at hlen
      omega
    | cons j rest =>
      intro hempty
      have hmem := haccept j (by rw [hr]; rfl)
      rw [hempty] at hmem
      simp at hmem
  refine ⟨haccept, hselne, ?_⟩
  rw [summarize_eq, if_neg h1, if_neg (not_le.mpr h2)] at hok
  cases hc : fitTransformCheck (splitSentences text) with
  | error e =>
    rw [hc] at hok
    exact absurd hok (by simp)
  | ok kept =>
    rw [hc] at hok
    by_cases h3 : opts.max_words < (splitW (assembled W text opts)).length
    · rw [if_pos h3] at hok
      injection hok with h
      rw [← h]
      simp
    · rw [if_neg h3] at hok
      injection hok with h
      rw [← h]
      show joinSp ((selectedSorted W text opts).map Prod.snd) ≠ []
      cases hS : selectedSorted W text opts with
      | nil =>
        exfalso
        apply hselne
        have hS' : sortSel (selectionOf W text opts) = [] := hS
        have hperm := sortSel_perm (selectionOf W text opts)
        rw [hS'] at hperm
        exact List.Perm.eq_nil hperm.symm
      | cons y ys =>
        have hy : y ∈ selectionOf W text opts := by
          have hS' : sortSel (selectionOf W text opts) = y :: ys := hS
          have hmem : y ∈ sortSel (selectionOf W text opts) := by
            rw [hS']
            exact List.mem_cons_self _ _
          exact ((sortSel_perm _).mem_iff).mp hmem
        obtain ⟨hlt, hsnd⟩ := selectionOf_mem hy
        have hsent : (splitSentences text).getD y.1 [] ∈ splitSentences text := by
          rw [List.getD_eq_getElem?_getD, List.getElem?_eq_getElem hlt]
          simp only [Option.getD_some]
          exact List.getElem_mem _
        have hy2 : y.2 ≠ [] := by
          rw [hsnd]
          exact sentence_ne_nil hsent
        simp only [List.map_cons]
        exact joinSp_ne_nil hy2 _

set_option maxRecDepth 2000000 in
/-- Witness for C10 on a three-sentence document that passes the
vectorizer check, with `min_words = 5`: the output is a non-empty
string. -/
theorem C10_nonempty_output_witness :
    splitSentences "The national government announced a sweeping economic reform package today. Economists praised the economic package as a bold and decisive measure. Opposition leaders promised vigorous debate over the proposal in parliament next week.".data ≠ [] ∧
      5 < wordCount (joinSp (splitSentences "The national government announced a sweeping economic reform package today. Economists praised the economic package as a bold and decisive measure. Opposition leaders promised vigorous debate over the proposal in parliament next week.".data)) ∧
      summarize (fun _ _ _ => 0) "The national government announced a sweeping economic reform package today. Economists praised the economic package as a bold and decisive measure. Opposition leaders promised vigorous debate over the proposal in parliament next week.".data ⟨5, 120, 10⟩ =
        .ok "Opposition leaders promised vigorous debate over the proposal in parliament next week.".data ∧
      "Opposition leaders promised vigorous debate over the proposal in parliament next week.".data ≠ ([] : Str) :=
  ⟨by decide, by decide, by with_unfolding_all decide,
    (C10_nonempty_output (fun _ _ _ => 0) "The national government announced a sweeping economic reform package today. Economists praised the economic package as a bold and decisive measure. Opposition leaders promised vigorous debate over the proposal in parliament next week.".data ⟨5, 120, 10⟩ "Opposition leaders promised vigorous debate over the proposal in parliament next week.".data (by decide) (by decide)
      (by with_unfolding_all decide)).2.2⟩

set_option maxRecDepth 2000000 in
/-- **C10** counterexample: a document with two kept sentences and total
word count above `min_words = 5` on which `summarize` raises instead of
returning any summary string — the sentence list is non-empty and the
word floor is exceeded, yet no (non-empty) string is returned. -/
theorem C10_counterexample :
    splitSentences "Banking regulators unveiled comprehensive new oversight guidelines yesterday afternoon. Insurance companies criticized the proposed capital requirements framework strongly.".data ≠ [] ∧
      5 < wordCount (joinSp (splitSentences "Banking regulators unveiled comprehensive new oversight guidelines yesterday afternoon. Insurance companies criticized the proposed capital requirements framework strongly.".data)) ∧
      summarize (fun _ _ _ => 0) "Banking regulators unveiled comprehensive new oversight guidelines yesterday afternoon. Insurance companies criticized the proposed capital requirements framework strongly.".data ⟨5, 120, 10⟩ =
        .error .maxDfLtMinDf := by
  with_unfolding_all decide

/-- **C2** (amended): provided `min_words ≤ max_words` and `max_words ≥ 1`,
every string `summarize` returns has word count at most `max_words`; and
whenever truncation occurred — the assembled selection exceeded
`max_words` words — the output is exactly the first `max_words` words of
the assembled summary followed immediately by a single ellipsis
character `…` with no space and no partial-word fragment, with word
count exactly `max_words`. Without those two side conditions the bound
fails (see the counterexample: the short-source passthrough ignores
`max_words`). -/
theorem C2_budget (W : List Str → ℕ → ℕ → ℚ) (text : Str) (opts : Opts) (out : Str)
    (hmw : opts.min_words ≤ opts.max_words) (hpos : 0 < opts.max_words)
    (hok : summarize W text opts = .ok out) :
    wordCount out ≤ opts.max_words ∧
      (opts.max_words < wordCount (assembled W text opts) →
        splitSentences text ≠ [] →
        opts.min_words < wordCount (joinSp (splitSentences text)) →
        out = joinSp ((splitW (assembled W text opts)).take opts.max_words) ++ ['…'] ∧
          wordCount out = opts.max_words) := by
  rw [summarize_eq] at hok
  by_cases h1 : splitSentences text = []
  · rw [if_pos h1] at hok
    injection hok with h
    rw [← h]
    exact ⟨by rw [show wordCount ([] : Str) = 0 from rfl]; exact Nat.zero_le _,
      fun _ hne => absurd h1 hne⟩
  · rw [if_neg h1] at hok
    by_cases h2 : wordCount (joinSp (splitSentences text)) ≤ opts.min_words
    · rw [if_pos h2] at hok
      injection hok with h
      rw [← h, pyStrip_eq_self (stripped_joinSp_sentences h1)]
      refine ⟨le_trans h2 hmw, ?_⟩
      intro _ _ hgt
      exact absurd h2 (not_le.mpr hgt)
    · rw [if_neg h2] at hok
      cases hc : fitTransformCheck (splitSentences text) with
      | error e =>
        rw [hc] at hok
        exact absurd hok (by simp)
      | ok kept =>
        rw [hc] at hok
        by_cases h3 : opts.max_words < (splitW (assembled W text opts)).length
        · rw [if_pos h3] at hok
          injection hok with h
          rw [← h]
          have hall : ∀ w ∈ (splitW (assembled W text opts)).take opts.max_words,
              WordLike w := by
            intro w hw
            exact splitW_words (List.take_subset _ _ hw)
          have htklen : ((splitW (assembled W text opts)).take opts.max_words).length =
              opts.max_words := by
            rw [List.length_take]
            exact min_eq_left (le_of_lt h3)
          have htkne : (splitW (assembled W text opts)).take opts.max_words ≠ [] := by
            intro hnil
            rw [hnil] at htklen
            simp at htklen
            omega
          have hrs : pyRstrip (joinSp ((splitW (assembled W text opts)).take opts.max_words)) =
              joinSp ((splitW (assembled W text opts)).take opts.max_words) :=
            pyRstrip_joinSp_words htkne hall
          rw [hrs]
          have hwc : wordCount
              (joinSp ((splitW (assembled W text opts)).take opts.max_words) ++ ['…']) =
              opts.max_words := by
            unfold wordCount
            rw [splitW_joinSp_append_char (by decide) htkne hall, htklen]
          exact ⟨le_of_eq hwc, fun _ _ _ => ⟨rfl, hwc⟩⟩
        · rw [if_neg h3] at hok
          injection hok with h
          rw [← h]
          exact ⟨not_lt.mp h3, fun hgt _ _ => absurd hgt h3⟩

set_option maxRecDepth 2000000 in
/-- Witness for C2 on a truncating run: three sentences, `min_words = 5`,
`max_words = 8`; the output has exactly 8 words and ends in the ellipsis
attached to the eighth word. -/
theorem C2_budget_witness :
    (5 : ℕ) ≤ 8 ∧ (0 : ℕ) < 8 ∧
      summarize (fun _ _ _ => 0) "The national government announced a sweeping economic reform package today. Economists praised the economic package as a bold and decisive measure. Opposition leaders promised vigorous debate over the proposal in parliament next week.".data ⟨5, 8, 10⟩ =
        .ok "Opposition leaders promised vigorous debate over the proposal…".data ∧
      wordCount "Opposition leaders promised vigorous debate over the proposal…".data ≤ 8 :=
  ⟨by decide, by decide, by with_unfolding_all decide,
    (C2_budget (fun _ _ _ => 0) "The national government announced a sweeping economic reform package today. Economists praised the economic package as a bold and decisive measure. Opposition leaders promised vigorous debate over the proposal in parliament next week.".data ⟨5, 8, 10⟩ "Opposition leaders promised vigorous debate over the proposal…".data (by decide) (by decide)
      (by with_unfolding_all decide)).1⟩

set_option maxRecDepth 2000000 in
/-- **C2** counterexample: with `min_words = 100 > max_words = 5` the
short-source passthrough returns the whole ten-word document, exceeding
`max_words`, so the claimed bound does not hold for every options
combination. -/
theorem C2_counterexample :
    summarize (fun _ _ _ => 0) "This sentence is definitely longer than the fifty character cutoff.".data ⟨100, 5, 10⟩ =
        .ok (joinSp (splitSentences "This sentence is definitely longer than the fifty character cutoff.".data)) ∧
      5 < wordCount (joinSp (splitSentences "This sentence is definitely longer than the fifty character cutoff.".data)) := by
  with_unfolding_all decide
